import Mathlib

/-!
Verification of the YOLO_Tools dataset utilities.

This file gives a shallow embedding of the pure-data cores of the repository's
scripts and proves properties about them:

* `AZYoloClassRemover2.py` — removing a class from a YOLO dataset: the
  `data.yaml` update (`get_class_index`, popping the class name, updating
  `nc`), the old-index → new-index map (`class_map`), and the per-file label
  rewrite (`update_labels`).
* `AZ_ClassExport2.py` — grouping detected video frames into episodes and
  selecting at most `max_to_save` of the collected episode endpoints.
* `AZYoloDatasetRearrange.py` — re-splitting a dataset into train/val/test.
* `AZ_Yolov8ClassificationFolderSpliter.py` — splitting classification
  folders into train/val/test with percentage validation.

Several of those scripts compute sizes and indices with Python `float`
(IEEE-754 binary64) arithmetic, e.g. `int(test_percent / 100 * n)`.  To settle
claims about those computations exactly, the file models binary64 values as
rational numbers and rounding as round-to-nearest, ties-to-even on 53-bit
significands (`fl`).  Overflow and subnormals are far outside the magnitudes
used by the scripts and are not modelled.

All definitions are written with elaborator-reducible rational operations
(`mkRat`, `Rat.divInt`, `Rat.floor`) so that concrete runs can be evaluated by
`decide`; bridge lemmas relate them to the ordinary field operations on `ℚ`.
-/

namespace YoloTools

/-! ### Reducible rational arithmetic

`Rat.mul`, `Rat.add` and `Rat.inv` are `@[irreducible]`, which prevents
`decide` from evaluating terms built from `*`, `+`, `⁻¹` on `ℚ`.  The
operations below compute the same values through `mkRat` / `Rat.divInt`,
which do reduce. -/

def qneg (a : ℚ) : ℚ := Rat.divInt (-a.num) a.den

def qinv (a : ℚ) : ℚ := Rat.divInt a.den a.num

def qmul (a b : ℚ) : ℚ := mkRat (a.num * b.num) (a.den * b.den)

def qadd (a b : ℚ) : ℚ := Rat.divInt (a.num * b.den + b.num * a.den) (a.den * b.den)

def qsub (a b : ℚ) : ℚ := qadd a (qneg b)

def qdiv (a b : ℚ) : ℚ := qmul a (qinv b)

theorem qneg_eq (a : ℚ) : qneg a = -a := by
  rw [qneg, Rat.divInt_eq_div]
  push_cast
  rw [neg_div, Rat.num_div_den]

theorem qinv_eq (a : ℚ) : qinv a = a⁻¹ := by
  rw [qinv, Rat.inv_def']

theorem qmul_eq (a b : ℚ) : qmul a b = a * b := by
  rw [qmul, Rat.mkRat_eq_divInt, Rat.divInt_eq_div]
  push_cast
  rw [← div_mul_div_comm, Rat.num_div_den, Rat.num_div_den]

theorem qadd_eq (a b : ℚ) : qadd a b = a + b := by
  have ha : ((a.den : ℚ)) ≠ 0 := by exact_mod_cast a.den_nz
  have hb : ((b.den : ℚ)) ≠ 0 := by exact_mod_cast b.den_nz
  rw [qadd, Rat.divInt_eq_div]
  push_cast
  conv_rhs => rw [← Rat.num_div_den a, ← Rat.num_div_den b]
  rw [div_add_div _ _ ha hb]
  ring_nf

theorem qsub_eq (a b : ℚ) : qsub a b = a - b := by
  rw [qsub, qadd_eq, qneg_eq, sub_eq_add_neg]

theorem qdiv_eq (a b : ℚ) : qdiv a b = a / b := by
  rw [qdiv, qmul_eq, qinv_eq, div_eq_mul_inv]

theorem ratFloor_eq (q : ℚ) : q.floor = ⌊q⌋ := by
  rw [Rat.floor_def', Rat.floor_def]

/-! ### Binary64 rounding model -/

/-- Base-2 logarithm with explicit fuel, so that it reduces in the
elaborator (`Nat.log2` is defined by well-founded recursion and does not). -/
def log2fuel : ℕ → ℕ → ℕ
  | 0, _ => 0
  | fuel + 1, n => if n ≥ 2 then log2fuel fuel (n / 2) + 1 else 0

/-- Computes `Nat.log2 n` with fuel `n`. -/
def nlog2 (n : ℕ) : ℕ := log2fuel n n

theorem log2fuel_eq_log2 : ∀ fuel n, n ≤ fuel → log2fuel fuel n = Nat.log2 n := by
  intro fuel
  induction fuel with
  | zero =>
    intro n hn
    interval_cases n
    simp [log2fuel, Nat.log2]
  | succ f ih =>
    intro n hn
    rw [log2fuel, Nat.log2]
    by_cases h2 : n ≥ 2
    · rw [if_pos h2, if_pos h2, ih]
      have := Nat.div_lt_self (by omega : 0 < n) (by omega : 1 < 2)
      omega
    · rw [if_neg h2, if_neg h2]

theorem nlog2_eq_log2 (n : ℕ) : nlog2 n = Nat.log2 n :=
  log2fuel_eq_log2 n n le_rfl

theorem nlog2_spec (n : ℕ) (hn : n ≠ 0) : 2 ^ nlog2 n ≤ n ∧ n < 2 ^ (nlog2 n + 1) := by
  rw [nlog2_eq_log2, Nat.log2_eq_log_two]
  exact ⟨Nat.pow_log_le_self 2 hn, Nat.lt_pow_succ_log_self (by omega) n⟩

/-- The rational `2 ^ k`, for an integer exponent `k`. -/
def twoPow (k : ℤ) : ℚ :=
  if 0 ≤ k then ((2 ^ k.toNat : ℕ) : ℚ) else qinv ((2 ^ (-k).toNat : ℕ) : ℚ)

theorem twoPow_eq (k : ℤ) : twoPow k = (2 : ℚ) ^ k := by
  rw [twoPow]
  by_cases h : 0 ≤ k
  · rw [if_pos h]
    push_cast
    rw [← zpow_natCast, Int.toNat_of_nonneg h]
  · rw [if_neg h, qinv_eq]
    push_cast
    rw [← zpow_natCast, Int.toNat_of_nonneg (by omega : 0 ≤ -k), ← zpow_neg, neg_neg]

/-- For `q > 0`, the binade exponent: the unique `e` with `2^e ≤ q < 2^(e+1)`. -/
def binExp (q : ℚ) : ℤ :=
  if 1 ≤ q then (nlog2 q.floor.toNat : ℤ)
  else if qmul q ((2 ^ nlog2 (qinv q).floor.toNat : ℕ) : ℚ) = 1 then
    -(nlog2 (qinv q).floor.toNat : ℤ)
  else -(nlog2 (qinv q).floor.toNat : ℤ) - 1

/-- Round a rational to the nearest integer, ties to even. -/
def rnEven (q : ℚ) : ℤ :=
  if qsub q ((q.floor : ℤ) : ℚ) < mkRat 1 2 then q.floor
  else if mkRat 1 2 < qsub q ((q.floor : ℤ) : ℚ) then q.floor + 1
  else if q.floor % 2 = 0 then q.floor else q.floor + 1

/-- Round a real (rational) value to the nearest IEEE-754 binary64 value:
round to nearest, ties to even, 53-bit significand.  Overflow and subnormals
are not modelled (the scripts' values are far inside the normal range). -/
def fl (q : ℚ) : ℚ :=
  if q = 0 then 0
  else if 0 < q then
    qmul ((rnEven (qmul q (twoPow (52 - binExp q))) : ℤ) : ℚ) (twoPow (binExp q - 52))
  else
    qneg (qmul ((rnEven (qmul (qneg q) (twoPow (52 - binExp (qneg q)))) : ℤ) : ℚ)
      (twoPow (binExp (qneg q) - 52)))

/-! ### Python arithmetic on doubles -/

/-- Python `float` division (`/`): correctly rounded true division.  CPython's
`int / int` and `float / float` both produce the correctly rounded double of
the exact quotient. -/
def pyDiv (a b : ℚ) : ℚ := fl (qdiv a b)

/-- Python `float` multiplication: correctly rounded. -/
def pyMul (a b : ℚ) : ℚ := fl (qmul a b)

/-- Python `float` addition: correctly rounded. -/
def pyAdd (a b : ℚ) : ℚ := fl (qadd a b)

/-- Python `float` subtraction: correctly rounded. -/
def pySub (a b : ℚ) : ℚ := fl (qsub a b)

/-- Python `abs` on a double (exact). -/
def pyAbs (q : ℚ) : ℚ := if q < 0 then qneg q else q

/-- Python `int(x)` on a double: truncation toward zero. -/
def pyTrunc (q : ℚ) : ℤ := if 0 ≤ q then q.floor else -((qneg q).floor)

example : pyTrunc (pyMul (pyDiv 29 100) (fl 100)) = 28 := by decide
example : pyTrunc (pyMul (fl 11) (pyDiv 30 22)) = 14 := by decide
example : pyTrunc (pyMul (fl 10) (pyDiv 70 100)) = 7 := by decide

/-! ### Correctness of the rounding model -/

theorem mkRat_half : (mkRat 1 2 : ℚ) = 1 / 2 := by
  rw [Rat.mkRat_eq_divInt, Rat.divInt_eq_div]
  norm_num

theorem binExp_spec {q : ℚ} (hq : 0 < q) :
    (2 : ℚ) ^ binExp q ≤ q ∧ q < (2 : ℚ) ^ (binExp q + 1) := by
  rw [binExp]
  by_cases h1 : 1 ≤ q
  · rw [if_pos h1]
    set n : ℕ := q.floor.toNat with hn
    have hfl : (1 : ℤ) ≤ ⌊q⌋ := Int.le_floor.mpr (by exact_mod_cast h1)
    have hn1 : n ≠ 0 := by
      rw [hn, ratFloor_eq]
      omega
    obtain ⟨hlo, hhi⟩ := nlog2_spec n hn1
    have hcast : ((n : ℤ) : ℚ) = ((⌊q⌋ : ℤ) : ℚ) := by
      rw [hn, ratFloor_eq]
      congr 1
      omega
    constructor
    · rw [zpow_natCast]
      calc (2 : ℚ) ^ nlog2 n = ((2 ^ nlog2 n : ℕ) : ℚ) := by push_cast; ring
        _ ≤ (n : ℚ) := by exact_mod_cast hlo
        _ ≤ q := by
            rw [show ((n : ℕ) : ℚ) = ((n : ℤ) : ℚ) by push_cast; ring, hcast]
            exact Int.floor_le q
    · have : q < (n : ℚ) + 1 := by
        rw [show ((n : ℕ) : ℚ) = ((n : ℤ) : ℚ) by push_cast; ring, hcast]
        exact Int.lt_floor_add_one q
      calc q < (n : ℚ) + 1 := this
        _ ≤ ((2 ^ (nlog2 n + 1) : ℕ) : ℚ) := by exact_mod_cast hhi
        _ = (2 : ℚ) ^ ((nlog2 n : ℤ) + 1) := by
            push_cast
            rw [← zpow_natCast (2 : ℚ) (nlog2 n + 1)]
            push_cast
            ring_nf
  · rw [if_neg h1]
    have hq1 : q < 1 := lt_of_not_le h1
    have hr1 : 1 < q⁻¹ := (one_lt_inv_iff₀).mpr ⟨hq, hq1⟩
    set m : ℕ := nlog2 (qinv q).floor.toNat with hm
    have hfl : (1 : ℤ) ≤ ⌊q⁻¹⌋ := Int.le_floor.mpr (by exact_mod_cast hr1.le)
    have hn1 : (qinv q).floor.toNat ≠ 0 := by
      rw [qinv_eq, ratFloor_eq]
      omega
    obtain ⟨hlo, hhi⟩ := nlog2_spec _ hn1
    rw [← hm] at hlo hhi
    have hcast : (((qinv q).floor.toNat : ℤ) : ℚ) = ((⌊q⁻¹⌋ : ℤ) : ℚ) := by
      rw [qinv_eq, ratFloor_eq]
      congr 1
      omega
    have hrlo : ((2 ^ m : ℕ) : ℚ) ≤ q⁻¹ := by
      calc ((2 ^ m : ℕ) : ℚ) ≤ (((qinv q).floor.toNat : ℕ) : ℚ) := by exact_mod_cast hlo
        _ = (((qinv q).floor.toNat : ℤ) : ℚ) := by push_cast; ring
        _ = ((⌊q⁻¹⌋ : ℤ) : ℚ) := hcast
        _ ≤ q⁻¹ := Int.floor_le _
    have hrhi : q⁻¹ < ((2 ^ (m + 1) : ℕ) : ℚ) := by
      calc q⁻¹ < (((qinv q).floor.toNat : ℤ) : ℚ) + 1 := by
            rw [hcast]; exact Int.lt_floor_add_one _
        _ = (((qinv q).floor.toNat : ℕ) : ℚ) + 1 := by push_cast; ring
        _ ≤ ((2 ^ (m + 1) : ℕ) : ℚ) := by exact_mod_cast hhi
    have hq_le : q ≤ (((2 ^ m : ℕ) : ℚ))⁻¹ := by
      have h2m : (0 : ℚ) < ((2 ^ m : ℕ) : ℚ) := by positivity
      calc q = (q⁻¹)⁻¹ := (inv_inv q).symm
        _ ≤ (((2 ^ m : ℕ) : ℚ))⁻¹ := by gcongr
    have hq_gt : (((2 ^ (m + 1) : ℕ) : ℚ))⁻¹ < q := by
      calc (((2 ^ (m + 1) : ℕ) : ℚ))⁻¹ < (q⁻¹)⁻¹ := by gcongr
        _ = q := inv_inv q
    have hzlo : ((2 ^ m : ℕ) : ℚ) = (2 : ℚ) ^ (m : ℤ) := by
      push_cast
      rw [zpow_natCast]
    have hzhi : ((2 ^ (m + 1) : ℕ) : ℚ) = (2 : ℚ) ^ ((m : ℤ) + 1) := by
      push_cast
      rw [show ((m : ℤ) + 1) = ((m + 1 : ℕ) : ℤ) by push_cast; ring, zpow_natCast]
      try push_cast
      try ring
    by_cases hexact : qmul q ((2 ^ m : ℕ) : ℚ) = 1
    · rw [if_pos hexact]
      rw [qmul_eq] at hexact
      have hqe : q = (((2 ^ m : ℕ) : ℚ))⁻¹ := by
        field_simp at hexact ⊢
        linarith [hexact]
      constructor
      · rw [hqe, hzlo, ← zpow_neg]
      · rw [hqe, hzlo, ← zpow_neg]
        have : (-(m : ℤ)) < (-(m : ℤ) + 1) := by omega
        exact zpow_lt_zpow_right₀ (by norm_num) this
    · rw [if_neg hexact]
      rw [qmul_eq] at hexact
      constructor
      · rw [show (-(m : ℤ) - 1) = -((m : ℤ) + 1) by ring, zpow_neg, ← hzhi]
        exact le_of_lt hq_gt
      · rw [show (-(m : ℤ) - 1 + 1) = -(m : ℤ) by ring]
        have hne : q ≠ (((2 ^ m : ℕ) : ℚ))⁻¹ := by
          intro he
          apply hexact
          rw [he]
          have : ((2 ^ m : ℕ) : ℚ) ≠ 0 := by positivity
          field_simp
        have := lt_of_le_of_ne hq_le hne
        rw [hzlo, ← zpow_neg] at this
        exact this

theorem rnEven_bounds (q : ℚ) :
    q - 1 / 2 ≤ (rnEven q : ℚ) ∧ (rnEven q : ℚ) ≤ q + 1 / 2 := by
  have h1 : ((⌊q⌋ : ℤ) : ℚ) ≤ q := Int.floor_le q
  have h2 : q < ((⌊q⌋ : ℤ) : ℚ) + 1 := Int.lt_floor_add_one q
  rw [rnEven, qsub_eq, mkRat_half, ratFloor_eq]
  split_ifs with ha hb hc
  · constructor <;> [linarith; linarith]
  · push_cast
    constructor <;> [linarith; linarith]
  · constructor <;> [linarith; linarith]
  · push_cast
    constructor <;> [linarith; linarith]

theorem rnEven_intCast (k : ℤ) : rnEven ((k : ℤ) : ℚ) = k := by
  have hf : ((k : ℚ)).floor = k := by
    rw [ratFloor_eq, Int.floor_intCast]
  rw [rnEven, hf, qsub_eq, mkRat_half]
  rw [sub_self]
  norm_num

theorem fl_pos_eq {q : ℚ} (hq : 0 < q) :
    fl q = ((rnEven (q * (2 : ℚ) ^ (52 - binExp q)) : ℤ) : ℚ) * (2 : ℚ) ^ (binExp q - 52) := by
  rw [fl, if_neg hq.ne', if_pos hq, qmul_eq, qmul_eq, twoPow_eq, twoPow_eq]

theorem fl_le {q : ℚ} (hq : 0 < q) : fl q ≤ q * (1 + (2 : ℚ) ^ (-53 : ℤ)) := by
  rw [fl_pos_eq hq]
  obtain ⟨he1, _⟩ := binExp_spec hq
  set e := binExp q with he
  have hup := (rnEven_bounds (q * (2 : ℚ) ^ (52 - e))).2
  have hpos : (0 : ℚ) < (2 : ℚ) ^ (e - 52) := zpow_pos (by norm_num) _
  calc ((rnEven (q * (2 : ℚ) ^ (52 - e)) : ℤ) : ℚ) * (2 : ℚ) ^ (e - 52)
      ≤ (q * (2 : ℚ) ^ (52 - e) + 1 / 2) * (2 : ℚ) ^ (e - 52) :=
        mul_le_mul_of_nonneg_right hup hpos.le
    _ = q + (2 : ℚ) ^ (e - 53) := by
        rw [add_mul, mul_assoc, ← zpow_add₀ (by norm_num : (2 : ℚ) ≠ 0)]
        rw [show (52 - e) + (e - 52) = 0 by ring, zpow_zero, mul_one]
        rw [show (1 : ℚ) / 2 = (2 : ℚ) ^ (-1 : ℤ) by norm_num]
        rw [← zpow_add₀ (by norm_num : (2 : ℚ) ≠ 0)]
        rw [show (-1 : ℤ) + (e - 52) = e - 53 by ring]
    _ ≤ q + q * (2 : ℚ) ^ (-53 : ℤ) := by
        have hsplit : (2 : ℚ) ^ (e - 53) = (2 : ℚ) ^ e * (2 : ℚ) ^ (-53 : ℤ) := by
          rw [← zpow_add₀ (by norm_num : (2 : ℚ) ≠ 0)]
          ring_nf
        have hmono : (2 : ℚ) ^ e * (2 : ℚ) ^ (-53 : ℤ) ≤ q * (2 : ℚ) ^ (-53 : ℤ) :=
          mul_le_mul_of_nonneg_right he1 (zpow_pos (by norm_num : (0:ℚ) < 2) _).le
        rw [hsplit]
        linarith
    _ = q * (1 + (2 : ℚ) ^ (-53 : ℤ)) := by ring

theorem fl_ge {q : ℚ} (hq : 0 < q) : q * (1 - (2 : ℚ) ^ (-53 : ℤ)) ≤ fl q := by
  rw [fl_pos_eq hq]
  obtain ⟨he1, _⟩ := binExp_spec hq
  set e := binExp q with he
  have hdn := (rnEven_bounds (q * (2 : ℚ) ^ (52 - e))).1
  have hpos : (0 : ℚ) < (2 : ℚ) ^ (e - 52) := zpow_pos (by norm_num) _
  calc q * (1 - (2 : ℚ) ^ (-53 : ℤ))
      = q - q * (2 : ℚ) ^ (-53 : ℤ) := by ring
    _ ≤ q - (2 : ℚ) ^ (e - 53) := by
        have hsplit : (2 : ℚ) ^ (e - 53) = (2 : ℚ) ^ e * (2 : ℚ) ^ (-53 : ℤ) := by
          rw [← zpow_add₀ (by norm_num : (2 : ℚ) ≠ 0)]
          ring_nf
        have hmono : (2 : ℚ) ^ e * (2 : ℚ) ^ (-53 : ℤ) ≤ q * (2 : ℚ) ^ (-53 : ℤ) :=
          mul_le_mul_of_nonneg_right he1 (zpow_pos (by norm_num : (0:ℚ) < 2) _).le
        rw [hsplit]
        linarith
    _ = (q * (2 : ℚ) ^ (52 - e) - 1 / 2) * (2 : ℚ) ^ (e - 52) := by
        rw [sub_mul, mul_assoc, ← zpow_add₀ (by norm_num : (2 : ℚ) ≠ 0)]
        rw [show (52 - e) + (e - 52) = 0 by ring, zpow_zero, mul_one]
        rw [show (1 : ℚ) / 2 = (2 : ℚ) ^ (-1 : ℤ) by norm_num]
        rw [← zpow_add₀ (by norm_num : (2 : ℚ) ≠ 0)]
        rw [show (-1 : ℤ) + (e - 52) = e - 53 by ring]
    _ ≤ ((rnEven (q * (2 : ℚ) ^ (52 - e)) : ℤ) : ℚ) * (2 : ℚ) ^ (e - 52) :=
        mul_le_mul_of_nonneg_right hdn hpos.le

theorem two_zpow_neg53_lt_one : (2 : ℚ) ^ (-53 : ℤ) < 1 := by
  rw [show (-53 : ℤ) = -((53 : ℕ) : ℤ) by norm_num, zpow_neg, zpow_natCast]
  norm_num

theorem fl_pos {q : ℚ} (hq : 0 < q) : 0 < fl q := by
  have h1 := fl_ge hq
  have h2 := two_zpow_neg53_lt_one
  nlinarith

theorem fl_nonneg {q : ℚ} (hq : 0 ≤ q) : 0 ≤ fl q := by
  rcases eq_or_lt_of_le hq with h | h
  · rw [← h]
    rw [fl, if_pos rfl]
  · exact (fl_pos h).le

theorem fl_natCast {n : ℕ} (h0 : 0 < n) (hlt : n < 2 ^ 53) : fl ((n : ℕ) : ℚ) = n := by
  have hq : (0 : ℚ) < (n : ℚ) := by exact_mod_cast h0
  rw [fl_pos_eq hq]
  obtain ⟨he1, he2⟩ := binExp_spec hq
  set e := binExp ((n : ℕ) : ℚ) with he
  have he0 : 0 ≤ e := by
    by_contra hcon
    push_neg at hcon
    have hle : e + 1 ≤ 0 := by omega
    have h2 : (2 : ℚ) ^ (e + 1) ≤ (2 : ℚ) ^ (0 : ℤ) := zpow_le_zpow_right₀ (by norm_num) hle
    have h1 : (1 : ℚ) ≤ (n : ℚ) := by exact_mod_cast h0
    rw [zpow_zero] at h2
    linarith
  have he52 : e ≤ 52 := by
    by_contra hcon
    push_neg at hcon
    have h53 : (53 : ℤ) ≤ e := by omega
    have hz := zpow_le_zpow_right₀ (by norm_num : (1 : ℚ) ≤ 2) h53
    have hc : ((n : ℕ) : ℚ) < (2 : ℚ) ^ (53 : ℤ) := by
      rw [show (53 : ℤ) = ((53 : ℕ) : ℤ) by norm_num, zpow_natCast]
      exact_mod_cast hlt
    linarith
  have hint : ((n : ℕ) : ℚ) * (2 : ℚ) ^ (52 - e) = (((n * 2 ^ (52 - e).toNat : ℕ) : ℤ) : ℚ) := by
    push_cast
    rw [← zpow_natCast (2 : ℚ) ((52 - e).toNat), Int.toNat_of_nonneg (by omega)]
  rw [hint, rnEven_intCast, ← hint]
  rw [mul_assoc, ← zpow_add₀ (by norm_num : (2 : ℚ) ≠ 0)]
  rw [show (52 - e) + (e - 52) = 0 by ring, zpow_zero, mul_one]

theorem fl_zero : fl 0 = 0 := by
  rw [fl, if_pos rfl]

theorem pyMul_def (a b : ℚ) : pyMul a b = fl (a * b) := by
  unfold pyMul
  rw [qmul_eq]

theorem pyDiv_def (a b : ℚ) : pyDiv a b = fl (a / b) := by
  unfold pyDiv
  rw [qdiv_eq]

theorem pyAdd_def (a b : ℚ) : pyAdd a b = fl (a + b) := by
  unfold pyAdd
  rw [qadd_eq]

theorem pySub_def (a b : ℚ) : pySub a b = fl (a - b) := by
  unfold pySub
  rw [qsub_eq]

theorem pyTrunc_eq_floor {q : ℚ} (hq : 0 ≤ q) : pyTrunc q = ⌊q⌋ := by
  rw [pyTrunc, if_pos hq, ratFloor_eq]

theorem two_zpow_neg53_eq : (2 : ℚ) ^ (-53 : ℤ) = 1 / 9007199254740992 := by
  rw [show (-53 : ℤ) = -((53 : ℕ) : ℤ) by norm_num, zpow_neg, zpow_natCast]
  norm_num

/-- The double-arithmetic index `int(i * (L / M))` computed by the frame
selector stays inside `[0, L)` whenever `i < M < L` and `M ≤ 2^51`:
the accumulated relative rounding error of at most `(1 + 2⁻⁵³)²` cannot
bridge the gap `(M - 1)/M < 1`. -/
theorem select_index_lt {L M i : ℕ} (hM1 : 1 ≤ M) (hML : M < L) (hM : M ≤ 2 ^ 51)
    (hi : i < M) :
    0 ≤ pyTrunc (pyMul (fl (i : ℚ)) (pyDiv (L : ℚ) (M : ℚ))) ∧
      pyTrunc (pyMul (fl (i : ℚ)) (pyDiv (L : ℚ) (M : ℚ))) < (L : ℤ) := by
  have hMq : (0 : ℚ) < (M : ℚ) := by exact_mod_cast hM1
  have hLq : (0 : ℚ) < (L : ℚ) := by exact_mod_cast (by omega : 0 < L)
  have hw : (0 : ℚ) < (L : ℚ) / (M : ℚ) := div_pos hLq hMq
  have hv : pyDiv (L : ℚ) (M : ℚ) = fl ((L : ℚ) / (M : ℚ)) := pyDiv_def _ _
  rcases Nat.eq_zero_or_pos i with hiz | hipos
  · subst hiz
    have hz : pyMul (fl ((0 : ℕ) : ℚ)) (pyDiv (L : ℚ) (M : ℚ)) = 0 := by
      rw [Nat.cast_zero, fl_zero, pyMul_def, zero_mul, fl_zero]
    rw [hz]
    refine ⟨by decide, ?_⟩
    have : pyTrunc 0 = 0 := by decide
    rw [this]
    exact_mod_cast (by omega : 0 < L)
  · have hfli : fl ((i : ℕ) : ℚ) = (i : ℚ) :=
      fl_natCast hipos (by omega : i < 2 ^ 53)
    set u := (2 : ℚ) ^ (-53 : ℤ) with hu
    have hu0 : 0 < u := zpow_pos (by norm_num) _
    have hvle : fl ((L : ℚ) / (M : ℚ)) ≤ ((L : ℚ) / (M : ℚ)) * (1 + u) := fl_le hw
    have hvpos : 0 < fl ((L : ℚ) / (M : ℚ)) := fl_pos hw
    have hipq : (0 : ℚ) < (i : ℚ) := by exact_mod_cast hipos
    have hprod_pos : 0 < (i : ℚ) * fl ((L : ℚ) / (M : ℚ)) := mul_pos hipq hvpos
    have hzle := fl_le hprod_pos
    have hznn := (fl_pos hprod_pos).le
    have hM51 : (M : ℚ) ≤ 2 ^ 51 := by exact_mod_cast hM
    have hkey : ((M : ℚ) - 1) * (2 * u + u * u) < 1 := by
      have h1 : ((M : ℚ) - 1) ≤ 2 ^ 51 - 1 := by linarith
      have h2 : (0 : ℚ) < 2 * u + u * u := by positivity
      calc ((M : ℚ) - 1) * (2 * u + u * u) ≤ (2 ^ 51 - 1) * (2 * u + u * u) :=
            mul_le_mul_of_nonneg_right h1 h2.le
        _ < 1 := by rw [hu, two_zpow_neg53_eq]; norm_num
    have hMm1 : ((M : ℚ) - 1) * (1 + u) ^ 2 < (M : ℚ) := by nlinarith [hkey]
    have hiM : (i : ℚ) ≤ (M : ℚ) - 1 := by
      have : (i : ℚ) + 1 ≤ (M : ℚ) := by exact_mod_cast hi
      linarith
    have hchain : fl ((i : ℚ) * fl ((L : ℚ) / (M : ℚ))) < (L : ℚ) := by
      calc fl ((i : ℚ) * fl ((L : ℚ) / (M : ℚ)))
          ≤ ((i : ℚ) * fl ((L : ℚ) / (M : ℚ))) * (1 + u) := hzle
        _ ≤ ((i : ℚ) * (((L : ℚ) / (M : ℚ)) * (1 + u))) * (1 + u) := by
            apply mul_le_mul_of_nonneg_right _ (by positivity)
            exact mul_le_mul_of_nonneg_left hvle hipq.le
        _ = ((i : ℚ) * ((L : ℚ) / (M : ℚ))) * (1 + u) ^ 2 := by ring
        _ ≤ (((M : ℚ) - 1) * ((L : ℚ) / (M : ℚ))) * (1 + u) ^ 2 := by
            apply mul_le_mul_of_nonneg_right _ (by positivity)
            exact mul_le_mul_of_nonneg_right hiM hw.le
        _ = (((M : ℚ) - 1) * (1 + u) ^ 2) * ((L : ℚ) / (M : ℚ)) := by ring
        _ < (M : ℚ) * ((L : ℚ) / (M : ℚ)) := mul_lt_mul_of_pos_right hMm1 hw
        _ = (L : ℚ) := by field_simp
    rw [pyMul_def, hfli, hv, pyTrunc_eq_floor hznn]
    constructor
    · exact Int.floor_nonneg.mpr hznn
    · rw [Int.floor_lt]
      exact_mod_cast hchain

/-! ### `AZYoloClassRemover2.py` — removing a class from a YOLO dataset

A label file is modelled as its list of lines, each line as the list of its
whitespace-separated tokens (the result of Python's `line.split()`); the
re-written line `" ".join(parts) + "\n"` has exactly those tokens. -/

/-- Value of a decimal digit character. -/
def digitVal (c : Char) : Option ℕ :=
  if c.isDigit then some (c.toNat - 48) else none

def parseDigits : List Char → ℕ → Option ℕ
  | [], acc => some acc
  | c :: cs, acc =>
    match digitVal c with
    | none => none
    | some d => parseDigits cs (acc * 10 + d)

/-- Python `int(s)` applied to a whitespace-free token: an optional sign
followed by at least one decimal digit; anything else raises `ValueError`
(modelled as `none`). -/
def parse_int (s : String) : Option ℤ :=
  match s.data with
  | [] => none
  | c :: cs =>
    if c = '-' then
      match cs with
      | [] => none
      | _ :: _ => (parseDigits cs 0).map (fun n => -(n : ℤ))
    else if c = '+' then
      match cs with
      | [] => none
      | _ :: _ => (parseDigits cs 0).map (fun n => (n : ℤ))
    else (parseDigits (c :: cs) 0).map (fun n => (n : ℤ))

/-- The dict comprehension
`class_map = {i: (i if i < old_class_index else i - 1) for i in range(len(classes) + 1)}`
from `process_dataset` (line 94); `numKeys = len(classes) + 1` is the number
of classes before removal.  A lookup outside the key range raises `KeyError`
(modelled as `none`). -/
def class_map (numKeys : ℕ) (old_class_index : ℤ) : ℤ → Option ℤ := fun i =>
  if 0 ≤ i ∧ i < (numKeys : ℤ) then some (if i < old_class_index then i else i - 1)
  else none

/-- The body of the per-line loop of `update_labels` (lines 32–37):
`parts = line.split(); class_idx = int(parts[0]); if class_idx != old: parts[0] = str(class_map[class_idx]); new_lines.append(...)`.
The outer `none` is a raised exception (`IndexError` on a blank line,
`ValueError` on a non-integer token, `KeyError` on an out-of-range index);
the inner `none` means the line is dropped. -/
def update_line (old_class_index : ℤ) (cmap : ℤ → Option ℤ) (parts : List String) :
    Option (Option (List String)) :=
  match parts with
  | [] => none
  | p :: rest =>
    match parse_int p with
    | none => none
    | some class_idx =>
      if class_idx = old_class_index then some none
      else
        match cmap class_idx with
        | none => none
        | some j => some (some (toString j :: rest))

/-- The per-file part of `update_labels` (lines 28–40): rewrite one label
file's lines, dropping lines of the removed class and remapping the rest. -/
def update_label_file (old_class_index : ℤ) (cmap : ℤ → Option ℤ) :
    List (List String) → Option (List (List String))
  | [] => some []
  | line :: lines =>
    match update_line old_class_index cmap line with
    | none => none
    | some none => update_label_file old_class_index cmap lines
    | some (some newLine) =>
      (update_label_file old_class_index cmap lines).map (fun ls => newLine :: ls)

/-- The function `update_labels` over the `.txt` files of a labels directory (line 25's
loop); each file is rewritten in place. -/
def update_labels (old_class_index : ℤ) (cmap : ℤ → Option ℤ) :
    List (List (List String)) → Option (List (List (List String)))
  | [] => some []
  | file :: files =>
    match update_label_file old_class_index cmap file with
    | none => none
    | some newFile =>
      (update_labels old_class_index cmap files).map (fun fs => newFile :: fs)

/-- The claim's description of the rewrite of one label file: keep exactly the
lines whose leading index differs from the removed one, in order, with the
leading index `i` replaced by `i` (if `i < r`) or `i - 1` (if `i > r`) and all
later tokens unchanged. -/
def rewrite_spec (old_class_index : ℤ) : List (List String) → List (List String) :=
  List.filterMap fun parts =>
    match parts with
    | [] => none
    | p :: rest =>
      match parse_int p with
      | none => none
      | some i =>
        if i = old_class_index then none
        else some (toString (if i < old_class_index then i else i - 1) :: rest)

/-- The class index announced by a line: its first token, parsed as an
integer (`none` on a blank line or an unparseable token). -/
def headIdx (l : List String) : Option ℤ := l.head?.bind parse_int

/-- A well-formed label line: non-empty, with a leading token that parses as
an integer in `[0, numClasses)`. -/
def WFline (numClasses : ℕ) (l : List String) : Prop :=
  ∃ i, headIdx l = some i ∧ 0 ≤ i ∧ i < (numClasses : ℤ)

instance (numClasses : ℕ) (l : List String) : Decidable (WFline numClasses l) :=
  match h : headIdx l with
  | none =>
    isFalse (by
      rintro ⟨i, hi, -⟩
      rw [h] at hi
      exact Option.noConfusion hi)
  | some i =>
    decidable_of_iff (0 ≤ i ∧ i < (numClasses : ℤ))
      ⟨fun hh => ⟨i, h, hh.1, hh.2⟩, fun ⟨j, hj, h1, h2⟩ => by
        rw [h] at hj
        injection hj with hj
        subst hj
        exact ⟨h1, h2⟩⟩

/-- A well-formed label file: every line is well-formed. -/
def WFfile (numClasses : ℕ) (lines : List (List String)) : Prop :=
  ∀ l ∈ lines, WFline numClasses l

instance (numClasses : ℕ) (lines : List (List String)) :
    Decidable (WFfile numClasses lines) :=
  List.decidableBAll (WFline numClasses) lines

/-- The function `get_class_index` (lines 17–21): index of the first occurrence of the
name, `-1` if absent. -/
def get_class_index (classes : List String) (class_name : String) : ℤ :=
  if class_name ∈ classes then (classes.indexOf class_name : ℤ) else -1

/-- The `names` / `nc` fields of `data.yaml`. -/
structure DataYaml where
  names : List String
  nc : ℕ

/-- The `data.yaml` update of `process_dataset` (lines 79–91): look up the
selected class, report an error if absent (`none`), otherwise pop it from
`names` and set `nc` to the new length. -/
def process_dataset_yaml (data : DataYaml) (selected_class : String) : Option DataYaml :=
  if get_class_index data.names selected_class = -1 then none
  else
    some { names := data.names.eraseIdx (get_class_index data.names selected_class).toNat
           nc := (data.names.eraseIdx (get_class_index data.names selected_class).toNat).length }

/-- The `class_map` as wired up in `process_dataset` (line 94): keys
`range(len(classes) + 1)` where `classes` is the names list after the pop. -/
def process_dataset_class_map (names : List String) (old_class_index : ℤ) : ℤ → Option ℤ :=
  class_map ((names.eraseIdx old_class_index.toNat).length + 1) old_class_index

/-! ### `AZ_ClassExport2.py` — episode extraction and frame selection

The detection loop is modelled by the sequence of frame indices at which the
selected class was detected, in the order the loop visits them; the episode
grouping (lines 124–147) is a fold over that sequence. -/

/-- Recording an episode: `if len(current_episode) >= 2: class_episodes.append((current_episode[0], current_episode[-1]))`. -/
def record_episode (eps : List (ℤ × ℤ)) (cur : List ℤ) : List (ℤ × ℤ) :=
  if 2 ≤ cur.length then eps ++ [(cur.headD 0, cur.getLastD 0)] else eps

/-- The episode-grouping fold of `process_video` (lines 124–147): `eps` is
`class_episodes`, `cur` is `current_episode`, and the traversed list is the
sequence of detected frame indices.  The final match arm also performs the
post-loop `if current_episode and len(current_episode) >= 2` recording
(line 145–146), which `record_episode` subsumes. -/
def episodes_go (eps : List (ℤ × ℤ)) (cur : List ℤ) : List ℤ → List (ℤ × ℤ)
  | [] => record_episode eps cur
  | f :: rest =>
    match cur with
    | [] => episodes_go eps [f] rest
    | _ :: _ =>
      if f - cur.getLastD 0 ≤ 60 then episodes_go eps (cur ++ [f]) rest
      else episodes_go (record_episode eps cur) [f] rest

/-- The episodes recorded by `process_video` for a given detected-frame
sequence. -/
def process_video_episodes (detected : List ℤ) : List (ℤ × ℤ) :=
  episodes_go [] [] detected

/-- Specification-side grouping: split a sequence into maximal runs in which
each consecutive pair differs by at most 60. -/
def chunks60_go (acc : List (List ℤ)) (cur : List ℤ) : List ℤ → List (List ℤ)
  | [] => if cur.isEmpty then acc else acc ++ [cur]
  | f :: rest =>
    match cur with
    | [] => chunks60_go acc [f] rest
    | _ :: _ =>
      if f - cur.getLastD 0 ≤ 60 then chunks60_go acc (cur ++ [f]) rest
      else chunks60_go (acc ++ [cur]) [f] rest

def chunks60 (xs : List ℤ) : List (List ℤ) := chunks60_go [] [] xs

/-- The `(first, last)` endpoint pair of a run. -/
def episode_of_chunk (c : List ℤ) : ℤ × ℤ := (c.headD 0, c.getLastD 0)

/-- The list comprehension `[all_detected[i] for i in indices]`, with `none`
for an `IndexError`. -/
def lookupAll {α : Type} (xs : List α) : List ℕ → Option (List α)
  | [] => some []
  | i :: is =>
    match xs.get? i with
    | none => none
    | some x => (lookupAll xs is).map (fun ys => x :: ys)

/-- The frame-selection step of `process_video` (lines 148–156):
`all_detected` is the flattened endpoint list; when it is longer than
`max_to_save`, `interval = len(all_detected) / max_to_save` (float division)
and the frames at indices `int(i * interval)` for `i in range(max_to_save)`
are selected; otherwise all frames are kept. -/
def select_frames {α : Type} (max_to_save : ℤ) (all_detected : List α) : Option (List α) :=
  if (all_detected.length : ℤ) > max_to_save then
    lookupAll all_detected ((List.range max_to_save.toNat).map fun (i : ℕ) =>
      (pyTrunc (pyMul (fl ((i : ℕ) : ℚ))
        (pyDiv (all_detected.length : ℚ) (max_to_save : ℚ)))).toNat)
  else some all_detected

/-! ### `AZYoloDatasetRearrange.py` — re-splitting a dataset -/

/-- The three destination sets of `rearrange_dataset`. -/
structure RearrangeResult (α : Type) where
  test_images : List α
  train_images : List α
  valid_images : List α

/-- The method `rearrange_dataset` (lines 72–114) after the images of the existing
splits have been collected and shuffled: `all_images` is the shuffled list.
`test_percent` must parse as an integer in `[0, 100]` (lines 77–83), else the
method reports an error and stops (`none`).  Counts are computed in Python
float arithmetic: `test_count = int(test_percent / 100 * len(all_images))`,
`train_percent = (split_scale / 100) * remaining_percent`,
`train_count = int(train_percent / 100 * len(remaining_images))`. -/
def rearrange_dataset {α : Type} (test_percent split_scale : ℤ) (all_images : List α) :
    Option (RearrangeResult α) :=
  if 0 ≤ test_percent ∧ test_percent ≤ 100 then
    some
      { test_images := all_images.take (pyTrunc (pyMul (pyDiv (test_percent : ℚ) 100)
          (fl (all_images.length : ℚ)))).toNat
        train_images := (all_images.drop (pyTrunc (pyMul (pyDiv (test_percent : ℚ) 100)
          (fl (all_images.length : ℚ)))).toNat).take
            (pyTrunc (pyMul (pyDiv (pyMul (pyDiv (split_scale : ℚ) 100)
              (fl ((100 - test_percent : ℤ) : ℚ))) 100)
              (fl ((all_images.drop (pyTrunc (pyMul (pyDiv (test_percent : ℚ) 100)
                (fl (all_images.length : ℚ)))).toNat).length : ℚ)))).toNat
        valid_images := (all_images.drop (pyTrunc (pyMul (pyDiv (test_percent : ℚ) 100)
          (fl (all_images.length : ℚ)))).toNat).drop
            (pyTrunc (pyMul (pyDiv (pyMul (pyDiv (split_scale : ℚ) 100)
              (fl ((100 - test_percent : ℤ) : ℚ))) 100)
              (fl ((all_images.drop (pyTrunc (pyMul (pyDiv (test_percent : ℚ) 100)
                (fl (all_images.length : ℚ)))).toNat).length : ℚ)))).toNat }
  else none

/-! ### `AZ_Yolov8ClassificationFolderSpliter.py` — classification split -/

/-- Effective index of a Python slice bound `i` for a list of length `n`:
a negative bound counts from the end (clamped below at 0), a nonnegative
bound is clamped above at `n`.  `l[a:b]` is then the elements with indices
in `[sliceIdx n a, sliceIdx n b)` and `l[a:]` those from `sliceIdx n a`. -/
def sliceIdx (n : ℕ) (i : ℤ) : ℕ :=
  if i < 0 then ((n : ℤ) + i).toNat else min i.toNat n

/-- The per-class split of `split_dataset` (lines 58–67): with the class's
(shuffled) file list, `n_train = int(n_total * train_pct)`,
`n_val = int(n_total * val_pct)` (both Python ints, possibly negative for a
negative percentage), and the three slices `files[:n_train]`,
`files[n_train:n_train + n_val]`, `files[n_train + n_val:]` with Python's
slice semantics. -/
def split_class_files {α : Type} (train_pct val_pct : ℚ) (files : List α) :
    List α × List α × List α :=
  (files.take (sliceIdx files.length (pyTrunc (pyMul (fl (files.length : ℚ)) train_pct))),
    (files.take (sliceIdx files.length
        (pyTrunc (pyMul (fl (files.length : ℚ)) train_pct) +
          pyTrunc (pyMul (fl (files.length : ℚ)) val_pct)))).drop
      (sliceIdx files.length (pyTrunc (pyMul (fl (files.length : ℚ)) train_pct))),
    files.drop (sliceIdx files.length
      (pyTrunc (pyMul (fl (files.length : ℚ)) train_pct) +
        pyTrunc (pyMul (fl (files.length : ℚ)) val_pct))))

/-- A parsed Python float: a finite value (an exact rational), NaN, or a
signed infinity — `float(entry)` can produce any of these (`float('nan')`
and `float('inf')` parse successfully).  Overflow of finite arithmetic to
infinity is outside the magnitudes modelled, as in `fl`. -/
inductive PyVal : Type
  | finite (q : ℚ)
  | nan
  | inf (negative : Bool)
deriving DecidableEq

/-- Python float division of a parsed entry by the int literal `100`. -/
def pyValDiv100 : PyVal → PyVal
  | .finite q => .finite (pyDiv q 100)
  | .nan => .nan
  | .inf s => .inf s

/-- Python float addition on possibly non-finite values: NaN propagates,
opposite infinities give NaN. -/
def pyValAdd : PyVal → PyVal → PyVal
  | .nan, _ => .nan
  | .finite _, .nan => .nan
  | .inf _, .nan => .nan
  | .inf s, .inf t => if s = t then .inf s else .nan
  | .inf s, .finite _ => .inf s
  | .finite _, .inf t => .inf t
  | .finite a, .finite b => .finite (pyAdd a b)

/-- Python `x - 1.0` on a possibly non-finite value. -/
def pyValSub1 : PyVal → PyVal
  | .finite a => .finite (pySub a 1)
  | .nan => .nan
  | .inf s => .inf s

/-- Python `abs` on a possibly non-finite value. -/
def pyValAbs : PyVal → PyVal
  | .finite a => .finite (pyAbs a)
  | .nan => .nan
  | .inf _ => .inf false

/-- Python `x > c` for a finite double `c`: any comparison with NaN is
`False`. -/
def pyValGT (x : PyVal) (c : ℚ) : Bool :=
  match x with
  | .finite a => decide (c < a)
  | .nan => false
  | .inf s => !s

/-- Observable outcome of a `split_dataset` run that passed the validation
of lines 24–38: whether the per-split class output directories were created
(lines 54–56), the per-class copied splits — `none` when the
`int(n_total * pct)` conversion of line 62/63 raised on a non-finite
percentage, which happens before any file of that loop is copied — and the
input folder contents afterwards (`shutil.copy` never removes a source). -/
structure SplitRun (α : Type) where
  dirs_created : Bool
  copied : Option (List (String × (List α × List α × List α)))
  input_after : List (String × List α)

/-- The function `split_dataset` (lines 20–90).  The three entry strings are
modelled by the `PyVal` each parses to, or `none` when `float(...)` raises
(lines 28–34).  The percentage check (lines 36–38) is
`abs(train + val + test - 1.0) > 0.01` on doubles, which is `False` — so the
run proceeds — whenever the computed value is NaN.  On a run that passes
validation the directories are created first; the per-class loop then
raises on `int(n_total * pct)` if the train or val percentage is non-finite
(unless there are no classes), before copying anything. -/
def split_dataset {α : Type} (train_entry val_entry test_entry : Option PyVal)
    (classes : List (String × List α)) : Option (SplitRun α) :=
  match train_entry, val_entry, test_entry with
  | some t, some v, some w =>
    if pyValGT (pyValAbs (pyValSub1 (pyValAdd (pyValAdd (pyValDiv100 t) (pyValDiv100 v))
        (pyValDiv100 w)))) (fl (mkRat 1 100)) then none
    else
      some { dirs_created := true
             copied :=
               match pyValDiv100 t, pyValDiv100 v with
               | .finite tq, .finite vq =>
                 some (classes.map fun cf => (cf.1, split_class_files tq vq cf.2))
               | _, _ => if classes.isEmpty then some [] else none
             input_after := classes }
  | _, _, _ => none

/-! ### Claims about the class remover -/

theorem update_line_parsed (r : ℤ) (cmap : ℤ → Option ℤ) (p : String) (rest : List String)
    (i : ℤ) (h : parse_int p = some i) :
    update_line r cmap (p :: rest) =
      if i = r then some none
      else
        match cmap i with
        | none => none
        | some j => some (some (toString j :: rest)) := by
  rw [update_line, h]

theorem rewrite_spec_cons (r : ℤ) (p : String) (rest : List String) (ls : List (List String))
    (i : ℤ) (h : parse_int p = some i) :
    rewrite_spec r ((p :: rest) :: ls) =
      if i = r then rewrite_spec r ls
      else (toString (if i < r then i else i - 1) :: rest) :: rewrite_spec r ls := by
  unfold rewrite_spec
  rw [List.filterMap_cons]
  dsimp only
  rw [h]
  dsimp only
  by_cases hir : i = r
  · rw [if_pos hir, if_pos hir]
  · rw [if_neg hir, if_neg hir]

theorem update_label_file_wf (numClasses : ℕ) (r : ℤ) (lines : List (List String))
    (hwf : WFfile numClasses lines) :
    update_label_file r (class_map numClasses r) lines = some (rewrite_spec r lines) := by
  induction lines with
  | nil => rfl
  | cons l ls ih =>
    obtain ⟨i, hhead, h0, hn⟩ := hwf l (List.mem_cons_self l ls)
    have ihs := ih (fun g hg => hwf g (List.mem_cons_of_mem l hg))
    cases l with
    | nil => simp [headIdx] at hhead
    | cons p rest =>
      simp only [headIdx, List.head?_cons, Option.bind_eq_bind, Option.some_bind] at hhead
      rw [update_label_file, update_line_parsed r _ p rest i hhead,
        rewrite_spec_cons r p rest ls i hhead]
      by_cases hir : i = r
      · rw [if_pos hir, if_pos hir]
        show update_label_file r (class_map numClasses r) ls = some (rewrite_spec r ls)
        exact ihs
      · rw [if_neg hir, if_neg hir]
        have hcm : class_map numClasses r i = some (if i < r then i else i - 1) := by
          unfold class_map
          rw [if_pos ⟨h0, hn⟩]
        rw [hcm]
        show (update_label_file r (class_map numClasses r) ls).map
            (fun l2 => (toString (if i < r then i else i - 1) :: rest) :: l2) =
          some ((toString (if i < r then i else i - 1) :: rest) :: rewrite_spec r ls)
        rw [ihs]
        rfl

theorem update_labels_wf (numClasses : ℕ) (r : ℤ) (files : List (List (List String)))
    (hwf : ∀ f ∈ files, WFfile numClasses f) :
    update_labels r (class_map numClasses r) files = some (files.map (rewrite_spec r)) := by
  induction files with
  | nil => rfl
  | cons f fs ih =>
    rw [update_labels, update_label_file_wf numClasses r f (hwf f (List.mem_cons_self f fs))]
    rw [ih (fun g hg => hwf g (List.mem_cons_of_mem f hg))]
    rfl

/-- C1.  Class-removal label rewrite: on a dataset whose label files are
well-formed for the old class count, `update_labels` with the `class_map`
built for removed index `r` rewrites every file to exactly the lines whose
leading class index differs from `r`, in their original order, with
unchanged trailing tokens and the leading index `i` remapped to `i` (when
`i < r`) or `i - 1` (when `i > r`). -/
theorem claim1_label_rewrite (numClasses : ℕ) (r : ℤ) (files : List (List (List String)))
    (_hr0 : 0 ≤ r) (_hrn : r < (numClasses : ℤ))
    (hwf : ∀ f ∈ files, WFfile numClasses f) :
    update_labels r (class_map numClasses r) files = some (files.map (rewrite_spec r)) :=
  update_labels_wf numClasses r files hwf

theorem claim1_label_rewrite_witness :
    update_labels 1 (class_map 3 1) [[["0", "a"], ["1", "b"], ["2", "c"]]] =
      some [[["0", "a"], ["1", "c"]]] :=
  (claim1_label_rewrite 3 1 [[["0", "a"], ["1", "b"], ["2", "c"]]]
    (by decide) (by decide) (by decide)).trans (by decide)

/-- C2.  Name-preserving remap: for a kept old index `i ≠ r`, the `class_map`
built by `process_dataset` sends `i` to a valid index of the popped names
list, and the name found there is the name at position `i` of the original
list. -/
theorem claim2_name_preserving (names : List String) (r i : ℕ)
    (hr : r < names.length) (hi : i < names.length) (hir : i ≠ r) :
    ∃ j : ℤ, process_dataset_class_map names (r : ℤ) (i : ℤ) = some j ∧
      j = (if (i : ℤ) < (r : ℤ) then (i : ℤ) else (i : ℤ) - 1) ∧ 0 ≤ j ∧
      (names.eraseIdx r)[j.toNat]? = names[i]? := by
  have hlen : (names.eraseIdx r).length + 1 = names.length :=
    List.length_eraseIdx_add_one hr
  unfold process_dataset_class_map class_map
  rw [Int.toNat_natCast, hlen]
  rw [if_pos ⟨by exact_mod_cast Nat.zero_le i, by exact_mod_cast hi⟩]
  refine ⟨_, rfl, rfl, ?_, ?_⟩
  · split_ifs with hlt
    · exact_mod_cast Nat.zero_le i
    · have : (r : ℤ) < (i : ℤ) := by
        rcases lt_or_ge (r : ℤ) (i : ℤ) with h | h
        · exact h
        · exact absurd (by omega : (i : ℤ) ≤ (r : ℤ)) (by
            intro hle
            rcases lt_or_eq_of_le hle with h1 | h1
            · exact hlt h1
            · exact hir (by exact_mod_cast h1))
      omega
  · by_cases hlt : i < r
    · rw [if_pos (by exact_mod_cast hlt : (i : ℤ) < (r : ℤ)), Int.toNat_natCast]
      exact List.getElem?_eraseIdx_of_lt names r i hlt
    · have hge : r < i := by omega
      rw [if_neg (by exact_mod_cast not_lt.mpr (by omega : r ≤ i) : ¬((i : ℤ) < (r : ℤ)))]
      have htn : ((i : ℤ) - 1).toNat = i - 1 := by omega
      rw [htn]
      rw [List.getElem?_eraseIdx_of_ge names r (i - 1) (by omega)]
      congr 1
      omega

theorem claim2_name_preserving_witness :
    ∃ j : ℤ, process_dataset_class_map ["a", "b", "c"] 1 2 = some j ∧
      j = (if (2 : ℤ) < (1 : ℤ) then (2 : ℤ) else (2 : ℤ) - 1) ∧ 0 ≤ j ∧
      (["a", "b", "c"].eraseIdx 1)[j.toNat]? = ["a", "b", "c"][(2 : ℕ)]? := by
  have h := claim2_name_preserving ["a", "b", "c"] 1 2 (by decide) (by decide) (by decide)
  simpa using h

/-- C3.  `data.yaml` update: removing a class name that is present pops its
first occurrence from `names` and sets `nc` to the new length, one less than
before. -/
theorem claim3_yaml_update (data : DataYaml) (selected : String)
    (hmem : selected ∈ data.names) :
    ∃ d2, process_dataset_yaml data selected = some d2 ∧
      d2.names = data.names.erase selected ∧
      d2.nc = d2.names.length ∧ d2.nc + 1 = data.names.length := by
  unfold process_dataset_yaml get_class_index
  rw [if_pos hmem]
  have hidx : data.names.indexOf selected < data.names.length :=
    List.indexOf_lt_length.mpr hmem
  have hne : ((data.names.indexOf selected : ℕ) : ℤ) ≠ -1 := by omega
  rw [if_neg hne]
  refine ⟨_, rfl, ?_, rfl, ?_⟩
  · rw [Int.toNat_natCast]
    exact List.eraseIdx_indexOf_eq_erase selected data.names
  · rw [Int.toNat_natCast]
    exact List.length_eraseIdx_add_one hidx

theorem claim3_yaml_update_witness :
    ∃ d2, process_dataset_yaml ⟨["cat", "dog", "cat"], 3⟩ "dog" = some d2 ∧
      d2.names = ["cat", "dog", "cat"].erase "dog" ∧
      d2.nc = d2.names.length ∧ d2.nc + 1 = (["cat", "dog", "cat"] : List String).length :=
  claim3_yaml_update ⟨["cat", "dog", "cat"], 3⟩ "dog" (by decide)

/-- C7.  Totality of the label rewrite under well-formed input: when every
line of every file is non-empty with a leading integer token in
`[0, numClasses)`, `update_labels` completes without an exception; outside
that precondition it can raise on each of the three exception paths — a
blank line (`IndexError` on `parts[0]`), a line whose leading token is not
an integer literal (`ValueError` from `int(...)`), and a line whose leading
index is at least the old class count (`KeyError` on the `class_map`
lookup) all produce an exception (`none`). -/
theorem claim7_totality :
    (∀ (numClasses : ℕ) (r : ℤ) (files : List (List (List String))),
        0 ≤ r → r < (numClasses : ℤ) → (∀ f ∈ files, WFfile numClasses f) →
        (update_labels r (class_map numClasses r) files).isSome) ∧
      update_label_file 1 (class_map 3 1) [[]] = none ∧
      update_label_file 1 (class_map 3 1) [["x", "0.5", "0.5"]] = none ∧
      update_label_file 1 (class_map 3 1) [["5", "0.5", "0.5"]] = none := by
  refine ⟨?_, by decide, by decide, by decide⟩
  intro numClasses r files _ _ hwf
  rw [update_labels_wf numClasses r files hwf]
  rfl

theorem claim7_totality_witness :
    (update_labels 1 (class_map 3 1) [[["0", "a"], ["2", "b"]]]).isSome :=
  claim7_totality.1 3 1 [[["0", "a"], ["2", "b"]]] (by decide) (by decide) (by decide)

/-! ### Claims about the episode extractor -/

/-- The within-run step relation: consecutive detected frame indices differ
by at most 60 (the code's `frame_index - current_episode[-1][0] <= 60`). -/
def gapOK (a b : ℤ) : Prop := b - a ≤ 60

/-- Chunk-boundary relation: the next run starts more than 60 frames after
the previous run ends (which is what makes the runs maximal). -/
def gapBig (c d : List ℤ) : Prop := ¬(d.headD 0 - c.getLastD 0 ≤ 60)

theorem getLast?_cons_eq (a : ℤ) (as : List ℤ) :
    (a :: as).getLast? = some ((a :: as).getLastD 0) := by
  rw [List.getLastD_eq_getLast?]
  cases h : (a :: as).getLast? with
  | none => simp at h
  | some x => rfl

theorem record_episode_append (eps : List (ℤ × ℤ)) (cur : List ℤ) :
    record_episode eps cur = eps ++ record_episode [] cur := by
  unfold record_episode
  split_ifs <;> simp

theorem episodes_go_acc (xs : List ℤ) : ∀ (eps : List (ℤ × ℤ)) (cur : List ℤ),
    episodes_go eps cur xs = eps ++ episodes_go [] cur xs := by
  induction xs with
  | nil =>
    intro eps cur
    rw [episodes_go, episodes_go, record_episode_append]
  | cons f rest ih =>
    intro eps cur
    cases cur with
    | nil =>
      rw [episodes_go, episodes_go]
      exact ih eps [f]
    | cons c cs =>
      rw [episodes_go, episodes_go]
      by_cases hgap : f - (c :: cs).getLastD 0 ≤ 60
      · rw [if_pos hgap, if_pos hgap]
        exact ih eps ((c :: cs) ++ [f])
      · rw [if_neg hgap, if_neg hgap]
        rw [ih (record_episode eps (c :: cs)) [f], ih (record_episode [] (c :: cs)) [f]]
        rw [record_episode_append eps (c :: cs), List.append_assoc]

theorem chunks60_go_acc (xs : List ℤ) : ∀ (acc : List (List ℤ)) (cur : List ℤ),
    chunks60_go acc cur xs = acc ++ chunks60_go [] cur xs := by
  induction xs with
  | nil =>
    intro acc cur
    rw [chunks60_go, chunks60_go]
    cases cur <;> simp [List.isEmpty]
  | cons f rest ih =>
    intro acc cur
    cases cur with
    | nil =>
      rw [chunks60_go, chunks60_go]
      exact ih acc [f]
    | cons c cs =>
      rw [chunks60_go, chunks60_go]
      by_cases hgap : f - (c :: cs).getLastD 0 ≤ 60
      · rw [if_pos hgap, if_pos hgap]
        exact ih acc ((c :: cs) ++ [f])
      · rw [if_neg hgap, if_neg hgap]
        rw [ih (acc ++ [c :: cs]) [f], ih ([] ++ [c :: cs]) [f], List.nil_append,
          List.append_assoc]

theorem episodes_eq_chunks_go (xs : List ℤ) : ∀ cur : List ℤ,
    episodes_go [] cur xs =
      ((chunks60_go [] cur xs).filter (fun c => 2 ≤ c.length)).map episode_of_chunk := by
  induction xs with
  | nil =>
    intro cur
    cases cur with
    | nil => rfl
    | cons c cs =>
      have hch : chunks60_go [] (c :: cs) [] = [c :: cs] := rfl
      rw [episodes_go, hch]
      unfold record_episode
      by_cases h2 : 2 ≤ (c :: cs).length
      · have hb : (decide (2 ≤ (c :: cs).length)) = true := by simpa using h2
        rw [if_pos h2, List.filter_cons, if_pos hb, List.filter_nil, List.map_cons,
          List.map_nil]
        rfl
      · have hb : (decide (2 ≤ (c :: cs).length)) = false := by simpa using h2
        rw [if_neg h2, List.filter_cons, if_neg (by rw [hb]; exact Bool.false_ne_true),
          List.filter_nil, List.map_nil]
  | cons f rest ih =>
    intro cur
    cases cur with
    | nil =>
      rw [episodes_go, chunks60_go]
      exact ih [f]
    | cons c cs =>
      rw [episodes_go, chunks60_go]
      by_cases hgap : f - (c :: cs).getLastD 0 ≤ 60
      · rw [if_pos hgap, if_pos hgap]
        exact ih ((c :: cs) ++ [f])
      · rw [if_neg hgap, if_neg hgap]
        rw [episodes_go_acc rest (record_episode [] (c :: cs)) [f]]
        rw [chunks60_go_acc rest ([] ++ [c :: cs]) [f], List.nil_append]
        rw [List.filter_append, List.map_append, ih [f]]
        congr 1
        unfold record_episode
        by_cases h2 : 2 ≤ (c :: cs).length
        · rw [if_pos h2]
          have hb : (decide (2 ≤ (c :: cs).length)) = true := by simpa using h2
          rw [List.filter_cons, if_pos hb, List.filter_nil, List.map_cons, List.map_nil]
          rfl
        · rw [if_neg h2]
          have hb : (decide (2 ≤ (c :: cs).length)) = false := by simpa using h2
          rw [List.filter_cons, if_neg (by rw [hb]; exact Bool.false_ne_true),
            List.filter_nil, List.map_nil]

theorem chunks60_go_join (xs : List ℤ) : ∀ cur : List ℤ,
    (chunks60_go [] cur xs).flatten = cur ++ xs := by
  induction xs with
  | nil =>
    intro cur
    rw [chunks60_go]
    cases cur <;> simp [List.isEmpty]
  | cons f rest ih =>
    intro cur
    cases cur with
    | nil =>
      rw [chunks60_go, ih [f]]
      rfl
    | cons c cs =>
      rw [chunks60_go]
      by_cases hgap : f - (c :: cs).getLastD 0 ≤ 60
      · rw [if_pos hgap, ih ((c :: cs) ++ [f])]
        simp
      · rw [if_neg hgap, chunks60_go_acc rest ([] ++ [c :: cs]) [f], List.nil_append]
        rw [List.flatten_append, ih [f]]
        simp

theorem chunks60_go_runs (xs : List ℤ) : ∀ cur : List ℤ, cur.Chain' gapOK →
    ∀ c ∈ chunks60_go [] cur xs, c ≠ [] ∧ c.Chain' gapOK := by
  induction xs with
  | nil =>
    intro cur hcur c hc
    rw [chunks60_go] at hc
    cases cur with
    | nil => simp [List.isEmpty] at hc
    | cons a as =>
      simp [List.isEmpty] at hc
      subst hc
      exact ⟨List.cons_ne_nil a as, hcur⟩
  | cons f rest ih =>
    intro cur hcur c hc
    cases cur with
    | nil =>
      rw [chunks60_go] at hc
      exact ih [f] (List.chain'_singleton f) c hc
    | cons a as =>
      rw [chunks60_go] at hc
      by_cases hgap : f - (a :: as).getLastD 0 ≤ 60
      · rw [if_pos hgap] at hc
        refine ih ((a :: as) ++ [f]) ?_ c hc
        rw [List.chain'_append]
        refine ⟨hcur, List.chain'_singleton f, ?_⟩
        intro x hx y hy
        simp at hy
        subst hy
        rw [getLast?_cons_eq] at hx
        injection hx with hx
        subst hx
        exact hgap
      · rw [if_neg hgap, chunks60_go_acc rest ([] ++ [a :: as]) [f], List.nil_append] at hc
        rcases List.mem_append.mp hc with h | h
        · simp at h
          subst h
          exact ⟨List.cons_ne_nil a as, hcur⟩
        · exact ih [f] (List.chain'_singleton f) c h

theorem chunks60_go_bounds (xs : List ℤ) : ∀ cur : List ℤ, cur ≠ [] →
    (∃ c0 cs, chunks60_go [] cur xs = c0 :: cs ∧ c0.headD 0 = cur.headD 0) ∧
      (chunks60_go [] cur xs).Chain' gapBig := by
  induction xs with
  | nil =>
    intro cur hcur
    rw [chunks60_go]
    cases cur with
    | nil => exact absurd rfl hcur
    | cons a as =>
      refine ⟨⟨a :: as, [], by simp [List.isEmpty], rfl⟩, ?_⟩
      simp [List.isEmpty]
  | cons f rest ih =>
    intro cur hcur
    cases cur with
    | nil => exact absurd rfl hcur
    | cons a as =>
      rw [chunks60_go]
      by_cases hgap : f - (a :: as).getLastD 0 ≤ 60
      · rw [if_pos hgap]
        obtain ⟨⟨c0, cs, heq, hhead⟩, hchain⟩ :=
          ih ((a :: as) ++ [f]) (by simp)
        exact ⟨⟨c0, cs, heq, hhead⟩, hchain⟩
      · rw [if_neg hgap, chunks60_go_acc rest ([] ++ [a :: as]) [f], List.nil_append]
        obtain ⟨⟨d0, ds, heq, hhead⟩, hchain⟩ := ih [f] (by simp)
        rw [heq, List.singleton_append]
        refine ⟨⟨a :: as, d0 :: ds, rfl, rfl⟩, ?_⟩
        rw [List.chain'_cons]
        refine ⟨?_, by rw [← heq]; exact hchain⟩
        unfold gapBig
        rw [hhead]
        exact hgap

/-- C8.  Episode invariant: the episodes recorded by the extractor are
exactly the `(first, last)` endpoint pairs of the maximal runs of the
detected-frame sequence in which consecutive detections are at most 60
frames apart, restricted to runs of at least 2 detections (singleton runs
contribute nothing).  The runs (`chunks60`) are maximal: they concatenate
back to the detected sequence, each is non-empty with internal gaps of at
most 60, and consecutive runs are separated by a gap of more than 60. -/
theorem claim8_episode_invariant (detected : List ℤ) :
    process_video_episodes detected =
      ((chunks60 detected).filter (fun c => 2 ≤ c.length)).map episode_of_chunk ∧
    (chunks60 detected).flatten = detected ∧
    (∀ c ∈ chunks60 detected, c ≠ [] ∧ c.Chain' gapOK) ∧
    (chunks60 detected).Chain' gapBig := by
  refine ⟨episodes_eq_chunks_go detected [], ?_, chunks60_go_runs detected [] List.chain'_nil, ?_⟩
  · rw [chunks60, chunks60_go_join detected []]
    rfl
  · cases detected with
    | nil => simp [chunks60, chunks60_go]
    | cons f rest =>
      rw [chunks60, chunks60_go]
      exact (chunks60_go_bounds rest [f] (by simp)).2

theorem lookupAll_spec {α : Type} (xs : List α) (is : List ℕ)
    (h : ∀ i ∈ is, i < xs.length) :
    ∃ ys, lookupAll xs is = some ys ∧ ys.length = is.length ∧
      ∀ k, ys.get? k = (is.get? k).bind xs.get? := by
  induction is with
  | nil => exact ⟨[], rfl, rfl, fun k => by cases k <;> rfl⟩
  | cons i is ih =>
    obtain ⟨ys, hys, hlen, hget⟩ := ih (fun j hj => h j (List.mem_cons_of_mem i hj))
    have hi : i < xs.length := h i (List.mem_cons_self i is)
    obtain ⟨x, hx⟩ : ∃ x, xs.get? i = some x := ⟨_, List.get?_eq_get hi⟩
    refine ⟨x :: ys, ?_, by simpa using hlen, ?_⟩
    · rw [lookupAll, hx, hys]
      rfl
    · intro k
      cases k with
      | zero => simpa using hx.symm
      | succ k => simpa using hget k

/-- C4 (counterexample).  With `L = 30` collected endpoint frames and
`max_to_save = 22`, the selection is NOT the list of elements at the exact
indices `⌊i·L/M⌋`: `interval = 30/22` is a double slightly below `15/11`, so
at `i = 11` the code computes `int(11 * interval) = 14` although
`⌊11·30/22⌋ = 15`. -/
theorem claim4_cap_counterexample :
    select_frames 22 (List.range 30) ≠
      some ((List.range 22).map (fun i => i * 30 / 22)) := by decide

/-- C4 (amended).  For `M ≥ 1` (and any realistic `M ≤ 2^51`), the number of
frames selected for export equals `min L M`; when `L > M` the selected frames
are the elements of the endpoint list at the indices `int(i * (L / M))`
computed in Python float arithmetic, each of which is within bounds; when
`L ≤ M` all frames are selected. -/
theorem claim4_cap (M : ℤ) (all : List ℕ) (hM1 : 1 ≤ M) (hM : M ≤ 2 ^ 51) :
    ∃ sel, select_frames M all = some sel ∧
      sel.length = min all.length M.toNat ∧
      ((all.length : ℤ) ≤ M → sel = all) ∧
      (M < (all.length : ℤ) → ∀ k : ℕ,
        sel.get? k = ((List.range M.toNat).get? k).bind (fun i =>
          all.get? (pyTrunc (pyMul (fl (i : ℚ))
            (pyDiv (all.length : ℚ) ((M : ℤ) : ℚ)))).toNat)) := by
  unfold select_frames
  by_cases hL : (all.length : ℤ) > M
  · rw [if_pos hL]
    have hcastM : ((M : ℤ) : ℚ) = ((M.toNat : ℕ) : ℚ) := by
      exact_mod_cast congrArg (fun z : ℤ => (z : ℚ))
        (Int.toNat_of_nonneg (by omega : (0 : ℤ) ≤ M)).symm
    have hidx : ∀ j ∈ (List.range M.toNat).map (fun (i : ℕ) =>
        (pyTrunc (pyMul (fl ((i : ℕ) : ℚ)) (pyDiv (all.length : ℚ) ((M : ℤ) : ℚ)))).toNat),
        j < all.length := by
      intro j hj
      simp only [List.mem_map, List.mem_range] at hj
      obtain ⟨i, hi, rfl⟩ := hj
      have h1 : 1 ≤ M.toNat := by omega
      have h2 : M.toNat < all.length := by omega
      have h3 : M.toNat ≤ 2 ^ 51 := by
        have hp : (2 : ℤ) ^ 51 = ((2 ^ 51 : ℕ) : ℤ) := by norm_cast
        omega
      obtain ⟨hb1, hb2⟩ := select_index_lt h1 h2 h3 hi
      rw [hcastM]
      omega
    obtain ⟨ys, hys, hlen, hget⟩ := lookupAll_spec all _ hidx
    refine ⟨ys, hys, ?_, ?_, ?_⟩
    · rw [hlen, List.length_map, List.length_range]
      omega
    · intro hc
      omega
    · intro _ k
      rw [hget k, List.get?_map]
      cases List.get? (List.range M.toNat) k <;> rfl
  · rw [if_neg hL]
    refine ⟨all, rfl, by omega, fun _ => rfl, fun hc => absurd hc hL⟩

/-! ### Claims about the dataset rearranger and the classification splitter -/

theorem take_drop_partition {α : Type} (l : List α) (a b : ℕ) :
    l.take a ++ ((l.drop a).take b ++ (l.drop a).drop b) = l := by
  rw [List.take_append_drop, List.take_append_drop]

theorem nodup_take_disjoint_drop {α : Type} (l : List α) (n : ℕ) (h : l.Nodup) :
    (l.take n).Disjoint (l.drop n) := by
  rw [← List.take_append_drop n l] at h
  exact (List.nodup_append.mp h).2.2

theorem nodup_drop {α : Type} (l : List α) (n : ℕ) (h : l.Nodup) : (l.drop n).Nodup := by
  rw [← List.take_append_drop n l] at h
  exact (List.nodup_append.mp h).2.1

theorem disjoint_mono_right {α : Type} {l₁ l₂ l₃ : List α}
    (hsub : l₃ ⊆ l₂) (h : l₁.Disjoint l₂) : l₁.Disjoint l₃ := by
  intro a ha hb
  exact h ha (hsub hb)

set_option maxRecDepth 8000 in
/-- C5 (counterexample).  With `test_percent = 29` and `N = 100` collected
images, the code's `int(29 / 100 * 100)` evaluates to 28 in double
arithmetic (`29/100 * 100 = 28.999999999999996`), so the test set receives
28 images, not `⌊29/100 · 100⌋ = 29` as the claim states. -/
theorem claim5_split_sizes_counterexample :
    (rearrange_dataset 29 70 (List.range 100)).map (fun r => r.test_images.length) =
        some 28 ∧
      29 * 100 / 100 = (29 : ℕ) ∧ (28 : ℕ) ≠ 29 := by
  refine ⟨by decide, by decide, by decide⟩

set_option maxHeartbeats 1000000 in
/-- C5 (amended).  For every shuffled image list, a test percentage
`p ∈ [0, 100]` and a slider value `s ≥ 0`: the test set is the first
`int(p/100 · N)` images (count computed in double arithmetic), the train set
the first `int(train_percent/100 · |remaining|)` images of the remainder
(again in double arithmetic), the validation set all the rest; the three
sets concatenate back to the whole list, so they are pairwise disjoint when
the images are distinct, with sizes `min tc N`, `min tr (N - tc)` and the
remainder. -/
theorem claim5_split_sizes {α : Type} (p s : ℤ) (all_images : List α)
    (hp0 : 0 ≤ p) (hp100 : p ≤ 100) (_hs0 : 0 ≤ s) :
    ∃ res tc tr, rearrange_dataset p s all_images = some res ∧
      tc = (pyTrunc (pyMul (pyDiv (p : ℚ) 100) (fl (all_images.length : ℚ)))).toNat ∧
      tr = (pyTrunc (pyMul (pyDiv (pyMul (pyDiv (s : ℚ) 100)
        (fl ((100 - p : ℤ) : ℚ))) 100) (fl ((all_images.drop tc).length : ℚ)))).toNat ∧
      res.test_images = all_images.take tc ∧
      res.train_images = (all_images.drop tc).take tr ∧
      res.valid_images = (all_images.drop tc).drop tr ∧
      res.test_images.length = min tc all_images.length ∧
      res.train_images.length = min tr (all_images.length - tc) ∧
      res.valid_images.length = all_images.length - tc - min tr (all_images.length - tc) ∧
      res.test_images ++ (res.train_images ++ res.valid_images) = all_images ∧
      (all_images.Nodup →
        res.test_images.Disjoint res.train_images ∧
        res.test_images.Disjoint res.valid_images ∧
        res.train_images.Disjoint res.valid_images) := by
  unfold rearrange_dataset
  rw [if_pos ⟨hp0, hp100⟩]
  refine ⟨_, _, _, rfl, rfl, rfl, rfl, rfl, rfl, ?_, ?_, ?_, ?_, ?_⟩
  · rw [List.length_take]
  · rw [List.length_take, List.length_drop]
  · rw [List.length_drop, List.length_drop]
    omega
  · exact take_drop_partition all_images _ _
  · intro hnodup
    have d1 := nodup_take_disjoint_drop all_images
      ((pyTrunc (pyMul (pyDiv (p : ℚ) 100) (fl (all_images.length : ℚ)))).toNat) hnodup
    have hd := nodup_drop all_images
      ((pyTrunc (pyMul (pyDiv (p : ℚ) 100) (fl (all_images.length : ℚ)))).toNat) hnodup
    exact ⟨disjoint_mono_right (List.take_subset _ _) d1,
      disjoint_mono_right (List.drop_subset _ _) d1,
      nodup_take_disjoint_drop _ _ hd⟩

theorem claim5_split_sizes_witness :
    ∃ res tc tr, rearrange_dataset 29 70 (List.range 100) = some res ∧
      tc = (pyTrunc (pyMul (pyDiv ((29 : ℤ) : ℚ) 100)
        (fl ((List.range 100).length : ℚ)))).toNat ∧
      tr = (pyTrunc (pyMul (pyDiv (pyMul (pyDiv ((70 : ℤ) : ℚ) 100)
        (fl ((100 - 29 : ℤ) : ℚ))) 100)
        (fl (((List.range 100).drop tc).length : ℚ)))).toNat ∧
      res.test_images = (List.range 100).take tc ∧
      res.train_images = ((List.range 100).drop tc).take tr ∧
      res.valid_images = ((List.range 100).drop tc).drop tr ∧
      res.test_images.length = min tc (List.range 100).length ∧
      res.train_images.length = min tr ((List.range 100).length - tc) ∧
      res.valid_images.length =
        (List.range 100).length - tc - min tr ((List.range 100).length - tc) ∧
      res.test_images ++ (res.train_images ++ res.valid_images) = List.range 100 ∧
      ((List.range 100).Nodup →
        res.test_images.Disjoint res.train_images ∧
        res.test_images.Disjoint res.valid_images ∧
        res.train_images.Disjoint res.valid_images) :=
  claim5_split_sizes 29 70 (List.range 100) (by decide) (by decide) (by decide)

theorem take_min_length {α : Type} (l : List α) (a : ℕ) :
    l.take (min a l.length) = l.take a := by
  rcases le_total a l.length with h | h
  · rw [min_eq_left h]
  · rw [min_eq_right h, List.take_length, List.take_of_length_le h]

theorem drop_min_length {α : Type} (l : List α) (a : ℕ) :
    l.drop (min a l.length) = l.drop a := by
  rcases le_total a l.length with h | h
  · rw [min_eq_left h]
  · rw [min_eq_right h, List.drop_length, List.drop_of_length_le h]

theorem slice_mid_eq {α : Type} (files : List α) (a b : ℕ) :
    (files.take (a + b)).drop (min a files.length) = (files.drop a).take b := by
  rcases le_total a files.length with h | h
  · rw [min_eq_left h, List.drop_take, Nat.add_sub_cancel_left]
  · rw [min_eq_right h, List.take_of_length_le (le_trans h (Nat.le_add_right a b)),
      List.drop_length, List.drop_of_length_le h, List.take_nil]

theorem pyMul_nonneg {a b : ℚ} (ha : 0 ≤ a) (hb : 0 ≤ b) : 0 ≤ pyMul a b := by
  rw [pyMul_def]
  exact fl_nonneg (mul_nonneg ha hb)

theorem pyTrunc_nonneg {q : ℚ} (hq : 0 ≤ q) : 0 ≤ pyTrunc q := by
  rw [pyTrunc_eq_floor hq]
  exact Int.floor_nonneg.mpr hq

/-- With nonnegative train and val percentages the per-class slice bounds
are nonnegative and the Python slices reduce to the plain take/drop
decomposition; a negative percentage instead produces a negative slice
bound, which Python interprets from the end of the list. -/
theorem split_class_files_nonneg {α : Type} (tp vp : ℚ) (files : List α)
    (htp : 0 ≤ tp) (hvp : 0 ≤ vp) :
    split_class_files tp vp files =
      (files.take (pyTrunc (pyMul (fl (files.length : ℚ)) tp)).toNat,
        (files.drop (pyTrunc (pyMul (fl (files.length : ℚ)) tp)).toNat).take
          (pyTrunc (pyMul (fl (files.length : ℚ)) vp)).toNat,
        files.drop ((pyTrunc (pyMul (fl (files.length : ℚ)) tp)).toNat +
          (pyTrunc (pyMul (fl (files.length : ℚ)) vp)).toNat)) := by
  have hfn : (0 : ℚ) ≤ fl (files.length : ℚ) := fl_nonneg (by positivity)
  have hT : 0 ≤ pyTrunc (pyMul (fl (files.length : ℚ)) tp) :=
    pyTrunc_nonneg (pyMul_nonneg hfn htp)
  have hV : 0 ≤ pyTrunc (pyMul (fl (files.length : ℚ)) vp) :=
    pyTrunc_nonneg (pyMul_nonneg hfn hvp)
  unfold split_class_files
  set Tz := pyTrunc (pyMul (fl (files.length : ℚ)) tp) with hTzdef
  set Vz := pyTrunc (pyMul (fl (files.length : ℚ)) vp) with hVzdef
  have hsT : sliceIdx files.length Tz = min Tz.toNat files.length := by
    rw [sliceIdx, if_neg (not_lt.mpr hT)]
  have hsTV : sliceIdx files.length (Tz + Vz) = min (Tz.toNat + Vz.toNat) files.length := by
    rw [sliceIdx, if_neg (not_lt.mpr (by omega : (0 : ℤ) ≤ Tz + Vz))]
    congr 1
    omega
  rw [hsT, hsTV, take_min_length, take_min_length, drop_min_length, slice_mid_eq]

set_option maxRecDepth 8000 in
/-- C6 (counterexample).  Two failures of the claim as stated.  With entries
`29`, `70`, `1` (which pass the validation: the double fractions sum to
exactly `1.0`) and a class of `n = 100` files, `int(100 * (29/100))`
evaluates to 28 in double arithmetic, so train receives 28 files, not
`⌊100 · 29/100⌋ = 29`.  And with entries `105`, `-6`, `1` (which also pass
the validation: `1.05 - 0.06 + 0.01 - 1.0 = 0.0` in doubles) the negative
`n_val = -6` makes Python's slices overlap: train receives all 100 files and
test receives file 99 as well, so the sets are neither disjoint nor of the
claimed sizes. -/
theorem claim6_class_split_counterexample :
    (((split_dataset (some (PyVal.finite 29)) (some (PyVal.finite 70))
        (some (PyVal.finite 1)) [("c", List.range 100)]).bind (fun run =>
          run.copied)).map (fun cs => cs.map (fun cf => cf.2.1.length))) =
        some [28] ∧
      100 * 29 / 100 = (29 : ℕ) ∧ (28 : ℕ) ≠ 29 ∧
      ((split_dataset (some (PyVal.finite 105)) (some (PyVal.finite (-6)))
          (some (PyVal.finite 1)) [("c", List.range 100)]).bind (fun run => run.copied)) =
        some [("c", (List.range 100, ([] : List ℕ), [99]))] ∧
      (99 : ℕ) ∈ List.range 100 ∧ (99 : ℕ) ∈ [99] := by
  refine ⟨by decide, by decide, by decide, by decide, by decide, by decide⟩

/-- C6 (amended).  For every class folder whose parsed train and val
fractions are nonnegative, the splitter copies the first
`int(n · train_pct)` (computed in double arithmetic) files to train, the
next `int(n · val_pct)` to val, and all remaining files to test; the three
slices concatenate back to the folder's file list (so they are pairwise
disjoint for distinct files and cover all of them), and a successful
`split_dataset` run returns the per-class splits for every class while
leaving the input folder unchanged (files are copied, not moved).  The
nonnegativity proviso is necessary: a negative parsed fraction yields a
negative Python slice bound and overlapping sets (see the counterexample). -/
theorem claim6_class_split {α : Type} :
    (∀ (tp vp : ℚ) (files : List α), 0 ≤ tp → 0 ≤ vp →
      ∃ nT nV : ℕ,
        (nT : ℤ) = pyTrunc (pyMul (fl (files.length : ℚ)) tp) ∧
        (nV : ℤ) = pyTrunc (pyMul (fl (files.length : ℚ)) vp) ∧
        split_class_files tp vp files =
          (files.take nT, (files.drop nT).take nV, files.drop (nT + nV)) ∧
        (files.take nT).length = min nT files.length ∧
        ((files.drop nT).take nV).length = min nV (files.length - nT) ∧
        (files.drop (nT + nV)).length = files.length - (nT + nV) ∧
        files.take nT ++ ((files.drop nT).take nV ++ files.drop (nT + nV)) = files ∧
        (files.Nodup →
          (files.take nT).Disjoint ((files.drop nT).take nV) ∧
          (files.take nT).Disjoint (files.drop (nT + nV)) ∧
          ((files.drop nT).take nV).Disjoint (files.drop (nT + nV)))) ∧
    (∀ (t v w : ℚ) (classes : List (String × List α)) (run : SplitRun α),
      split_dataset (some (PyVal.finite t)) (some (PyVal.finite v))
          (some (PyVal.finite w)) classes = some run →
      run.input_after = classes ∧
      run.copied = some (classes.map (fun cf =>
        (cf.1, split_class_files (pyDiv t 100) (pyDiv v 100) cf.2)))) := by
  constructor
  · intro tp vp files htp hvp
    have hfn : (0 : ℚ) ≤ fl (files.length : ℚ) := fl_nonneg (by positivity)
    have hT : 0 ≤ pyTrunc (pyMul (fl (files.length : ℚ)) tp) :=
      pyTrunc_nonneg (pyMul_nonneg hfn htp)
    have hV : 0 ≤ pyTrunc (pyMul (fl (files.length : ℚ)) vp) :=
      pyTrunc_nonneg (pyMul_nonneg hfn hvp)
    refine ⟨(pyTrunc (pyMul (fl (files.length : ℚ)) tp)).toNat,
      (pyTrunc (pyMul (fl (files.length : ℚ)) vp)).toNat,
      Int.toNat_of_nonneg hT, Int.toNat_of_nonneg hV,
      split_class_files_nonneg tp vp files htp hvp, ?_, ?_, ?_, ?_, ?_⟩
    · rw [List.length_take]
    · rw [List.length_take, List.length_drop]
    · rw [List.length_drop]
    · rw [← List.drop_drop]
      exact take_drop_partition files _ _
    · intro hnodup
      rw [← List.drop_drop]
      have d1 := nodup_take_disjoint_drop files
        ((pyTrunc (pyMul (fl (files.length : ℚ)) tp)).toNat) hnodup
      have hd := nodup_drop files
        ((pyTrunc (pyMul (fl (files.length : ℚ)) tp)).toNat) hnodup
      exact ⟨disjoint_mono_right (List.take_subset _ _) d1,
        disjoint_mono_right (List.drop_subset _ _) d1,
        nodup_take_disjoint_drop _ _ hd⟩
  · intro t v w classes run h
    unfold split_dataset at h
    dsimp only [pyValDiv100] at h
    split_ifs at h
    injection h with h
    subst h
    exact ⟨rfl, rfl⟩

theorem claim6_class_split_witness :
    ∃ nT nV : ℕ,
      (nT : ℤ) = pyTrunc (pyMul (fl ((List.range 10).length : ℚ)) (mkRat 1 2)) ∧
      (nV : ℤ) = pyTrunc (pyMul (fl ((List.range 10).length : ℚ)) (mkRat 1 4)) ∧
      split_class_files (mkRat 1 2) (mkRat 1 4) (List.range 10) =
        ((List.range 10).take nT, ((List.range 10).drop nT).take nV,
          (List.range 10).drop (nT + nV)) ∧
      ((List.range 10).take nT).length = min nT (List.range 10).length ∧
      (((List.range 10).drop nT).take nV).length = min nV ((List.range 10).length - nT) ∧
      ((List.range 10).drop (nT + nV)).length = (List.range 10).length - (nT + nV) ∧
      (List.range 10).take nT ++ (((List.range 10).drop nT).take nV ++
        (List.range 10).drop (nT + nV)) = List.range 10 ∧
      ((List.range 10).Nodup →
        ((List.range 10).take nT).Disjoint (((List.range 10).drop nT).take nV) ∧
        ((List.range 10).take nT).Disjoint ((List.range 10).drop (nT + nV)) ∧
        (((List.range 10).drop nT).take nV).Disjoint ((List.range 10).drop (nT + nV))) :=
  claim6_class_split.1 (mkRat 1 2) (mkRat 1 4) (List.range 10) (by decide) (by decide)

/-- C9 (counterexample).  The entry `nan` parses (`float('nan')` succeeds),
every comparison with NaN is `False`, so `abs(... - 1.0) > 0.01` does not
trigger the error path although the computed value is NaN and not within any
tolerance of 0; the output directories are then created (lines 54–56) and
`int(n_total * train_pct)` raises `ValueError` in the first loop iteration
(line 62) before any file is copied.  Directories are created, yet no files
are copied — refuting the claimed equivalence and its atomicity. -/
theorem claim9_validation_atomic_counterexample :
    ((split_dataset (some PyVal.nan) (some (PyVal.finite 70)) (some (PyVal.finite 1))
        [("c", [(0 : ℕ)])]).map (fun run => (run.dirs_created, run.copied.isSome))) =
        some (true, false) ∧
      pyValAbs (pyValSub1 (pyValAdd (pyValAdd (pyValDiv100 PyVal.nan)
        (pyValDiv100 (PyVal.finite 70))) (pyValDiv100 (PyVal.finite 1)))) = PyVal.nan := by
  refine ⟨by decide, by decide⟩

/-- C9 (amended).  The splitter reaches its output phase exactly when the
three entries parse and the double comparison `abs(t/100+v/100+w/100 - 1.0)
> 0.01` is `False`; on a parse failure or a `True` comparison it reports an
error and produces nothing (no directories, no copies).  On every run that
passes validation the output directories are created and the input folder is
left unchanged; when the train and val fractions are finite every class's
files are copied according to `split_class_files`, but when either fraction
is non-finite (NaN parses and makes the comparison `False`) the per-class
`int(n * pct)` conversion raises before any file is copied, so directories
exist while no files were copied. -/
theorem claim9_validation_atomic {α : Type} (t v w : Option PyVal)
    (classes : List (String × List α)) :
    ((split_dataset t v w classes).isSome ↔
      ∃ tv vv wv, t = some tv ∧ v = some vv ∧ w = some wv ∧
        pyValGT (pyValAbs (pyValSub1 (pyValAdd (pyValAdd (pyValDiv100 tv)
          (pyValDiv100 vv)) (pyValDiv100 wv)))) (fl (mkRat 1 100)) = false) ∧
    (∀ run, split_dataset t v w classes = some run →
      run.dirs_created = true ∧ run.input_after = classes) ∧
    (∀ tq vq wv, t = some (PyVal.finite tq) → v = some (PyVal.finite vq) →
      w = some wv → (split_dataset t v w classes).isSome →
      split_dataset t v w classes = some
        { dirs_created := true
          copied := some (classes.map (fun cf =>
            (cf.1, split_class_files (pyDiv tq 100) (pyDiv vq 100) cf.2)))
          input_after := classes }) ∧
    (∀ tv vv wv run, t = some tv → v = some vv → w = some wv →
      ((∀ q : ℚ, pyValDiv100 tv ≠ PyVal.finite q) ∨
        (∀ q : ℚ, pyValDiv100 vv ≠ PyVal.finite q)) →
      classes ≠ [] → split_dataset t v w classes = some run → run.copied = none) := by
  refine ⟨?_, ?_, ?_, ?_⟩
  · constructor
    · intro h
      match t, v, w with
      | none, _, _ => simp [split_dataset] at h
      | some tv, none, _ => simp [split_dataset] at h
      | some tv, some vv, none => simp [split_dataset] at h
      | some tv, some vv, some wv =>
        refine ⟨tv, vv, wv, rfl, rfl, rfl, ?_⟩
        unfold split_dataset at h
        dsimp only at h
        by_cases hc : pyValGT (pyValAbs (pyValSub1 (pyValAdd (pyValAdd (pyValDiv100 tv)
            (pyValDiv100 vv)) (pyValDiv100 wv)))) (fl (mkRat 1 100)) = true
        · rw [if_pos hc] at h
          simp at h
        · simpa using hc
    · rintro ⟨tv, vv, wv, rfl, rfl, rfl, hfalse⟩
      unfold split_dataset
      dsimp only
      rw [if_neg (by rw [hfalse]; exact Bool.false_ne_true)]
      rfl
  · intro run h
    match t, v, w with
    | none, _, _ => simp [split_dataset] at h
    | some tv, none, _ => simp [split_dataset] at h
    | some tv, some vv, none => simp [split_dataset] at h
    | some tv, some vv, some wv =>
      unfold split_dataset at h
      dsimp only at h
      by_cases hc : pyValGT (pyValAbs (pyValSub1 (pyValAdd (pyValAdd (pyValDiv100 tv)
          (pyValDiv100 vv)) (pyValDiv100 wv)))) (fl (mkRat 1 100)) = true
      · rw [if_pos hc] at h
        exact Option.noConfusion h
      · rw [if_neg hc] at h
        injection h with h
        subst h
        exact ⟨rfl, rfl⟩
  · rintro tq vq wv rfl rfl rfl hsome
    unfold split_dataset at hsome ⊢
    dsimp only at hsome ⊢
    by_cases hc : pyValGT (pyValAbs (pyValSub1 (pyValAdd (pyValAdd
        (pyValDiv100 (PyVal.finite tq)) (pyValDiv100 (PyVal.finite vq)))
        (pyValDiv100 wv)))) (fl (mkRat 1 100)) = true
    · rw [if_pos hc] at hsome
      simp at hsome
    · rw [if_neg hc]
      rfl
  · rintro tv vv wv run rfl rfl rfl hnf hne h
    unfold split_dataset at h
    dsimp only at h
    by_cases hc : pyValGT (pyValAbs (pyValSub1 (pyValAdd (pyValAdd (pyValDiv100 tv)
        (pyValDiv100 vv)) (pyValDiv100 wv)))) (fl (mkRat 1 100)) = true
    · rw [if_pos hc] at h
      exact Option.noConfusion h
    · rw [if_neg hc] at h
      injection h with h
      subst h
      have hE : classes.isEmpty = false := by
        cases classes with
        | nil => exact absurd rfl hne
        | cons c cs => rfl
      dsimp only
      rcases hnf with h1 | h1
      · cases htv : pyValDiv100 tv with
        | finite q => exact absurd htv (h1 q)
        | nan =>
          dsimp only
          rw [hE]
          rfl
        | inf s =>
          dsimp only
          rw [hE]
          rfl
      · cases htv : pyValDiv100 tv with
        | finite q =>
          cases hvv : pyValDiv100 vv with
          | finite q2 => exact absurd hvv (h1 q2)
          | nan =>
            dsimp only
            rw [hE]
            rfl
          | inf s =>
            dsimp only
            rw [hE]
            rfl
        | nan =>
          dsimp only
          rw [hE]
          rfl
        | inf s =>
          dsimp only
          rw [hE]
          rfl

theorem claim9_validation_atomic_witness :
    split_dataset (some (PyVal.finite 29)) (some (PyVal.finite 70)) (some (PyVal.finite 1))
        [("c", [(0 : ℕ), 1])] = some
      { dirs_created := true
        copied := some ([("c", [(0 : ℕ), 1])].map (fun cf =>
          (cf.1, split_class_files (pyDiv 29 100) (pyDiv 70 100) cf.2)))
        input_after := [("c", [(0 : ℕ), 1])] } :=
  (claim9_validation_atomic (some (PyVal.finite 29)) (some (PyVal.finite 70))
    (some (PyVal.finite 1)) [("c", [(0 : ℕ), 1])]).2.2.1 29 70 (PyVal.finite 1)
    rfl rfl rfl (by decide)

theorem claim4_cap_witness :
    ∃ sel, select_frames 22 (List.range 30) = some sel ∧
      sel.length = min (List.range 30).length (22 : ℤ).toNat ∧
      (((List.range 30).length : ℤ) ≤ 22 → sel = List.range 30) ∧
      ((22 : ℤ) < ((List.range 30).length : ℤ) → ∀ k : ℕ,
        sel.get? k = ((List.range (22 : ℤ).toNat).get? k).bind (fun i =>
          (List.range 30).get? (pyTrunc (pyMul (fl (i : ℚ))
            (pyDiv ((List.range 30).length : ℚ) ((22 : ℤ) : ℚ)))).toNat)) :=
  claim4_cap 22 (List.range 30) (by decide) (by decide)

end YoloTools
